import Mathlib

/-!
Verification of the HTML formatter of the pint units library
(src/pint/delegates/formatter/html.py).

The Python code is shallowly embedded: strings are processed as
Lists of characters, the regular expressions of the source are
modelled as deterministic matchers (backtracking is irrelevant for
these patterns, as argued lemma by lemma), and Python re.sub is
modelled as a left-to-right scan replacing every non-overlapping
occurrence. External collaborators that are not part of the shown
sources (the locale-aware number formatter, the compound-unit
collaborator, the helpers split_format, join_mu, join_unc,
remove_custom_flags, and override_locale) are either taken as
function parameters or modelled from the specification, as marked
in their doc comments.
-/

namespace PintHtml

/-- Maximal run of decimal digits at the head of the list, together
with the remaining characters. -/
def takeDigits : List Char → List Char × List Char
  | [] => ([], [])
  | c :: cs =>
    if c.isDigit then
      let p := takeDigits cs
      (c :: p.1, p.2)
    else ([], c :: cs)

/-- Numeric value of a list of decimal digit characters (most
significant first), as Python int() computes it. -/
def digitsToNat (ds : List Char) : Nat :=
  ds.foldl (fun a c => 10 * a + (c.toNat - '0'.toNat)) 0

/-- The tail of group 1 after its leading digit: an optional dot
followed by a maximal digit run. Backtracking over the optional
dot is dead because a rejected dot leaves the dot itself where the
pattern then requires an e. -/
def parseG1Tail (cs : List Char) : List Char × List Char :=
  match cs with
  | '.' :: cs2 =>
    let q := takeDigits cs2
    ('.' :: q.1, q.2)
  | _ => takeDigits cs

/-- The optional minus-sign group: the matched group and the rest. -/
def parseSign (cs : List Char) : List Char × List Char :=
  match cs with
  | '-' :: r => (['-'], r)
  | _ => ([], cs)

/-- The optional plus sign: the rest after consuming it if present. -/
def parsePlus (cs : List Char) : List Char :=
  match cs with
  | '+' :: r => r
  | _ => cs

/-- Group 3 carved out of the maximal digit run of the exponent:
the greedy zero run 0* eats the leading zeros, except that on an
all-zero run it backtracks one zero so that the digit group keeps
a single zero. -/
def expGroup3 (run : List Char) : List Char :=
  let stripped := run.dropWhile (fun x => x = '0')
  if stripped = [] then ['0'] else stripped

/-- Deterministic matcher for the anchored regular expression
_EXP_PATTERN of the source, ([0-9].?[0-9]*)e(-?)[+]?0*([0-9]+) with
the dot escaped: on success returns (group1, group2, group3, rest).
Greedy matching with backtracking collapses to this deterministic
procedure because the character classes of adjacent pieces are
disjoint; the only live backtracking, 0*([0-9]+) on an all-zero
digit run, is handled by expGroup3. -/
def matchExp : List Char → Option (List Char × List Char × List Char × List Char)
  | [] => none
  | c :: cs =>
    if c.isDigit then
      match parseG1Tail cs with
      | (g1tail, 'e' :: rest2) =>
        match takeDigits (parsePlus (parseSign rest2).2) with
        | ([], _) => none
        | (d :: ds, rest) =>
          some (c :: g1tail, (parseSign rest2).1, expGroup3 (d :: ds), rest)
      | _ => none
    else none

/-- Signed integer reconstructed from the sign group and the digit
group, as int(m.group(2) + m.group(3)) in the source. -/
def expValue (g2 g3 : List Char) : Int :=
  if g2 = ['-'] then -(digitsToNat g3 : Int) else (digitsToNat g3 : Int)

/-- Fuelled left-to-right global substitution: at each position, if
the matcher fires, emit its replacement and continue after the
consumed text, else keep the character. This is the semantics of
Python re.sub. The fuel is an upper bound on the length of the
text still to scan. -/
def gsubAux (M : List Char → Option (List Char × List Char)) : Nat → List Char → List Char
  | 0, l => l
  | _ + 1, [] => []
  | f + 1, c :: cs =>
    match M (c :: cs) with
    | some (out, rest) => out ++ gsubAux M f rest
    | none => c :: gsubAux M f cs

/-- Global substitution with just enough fuel. -/
def gsub (M : List Char → Option (List Char × List Char)) (l : List Char) : List Char :=
  gsubAux M l.length l

/-- Matcher-with-replacement for _EXP_PATTERN.sub of the source:
the replacement of each occurrence is its own group 1 followed by
the fixed suffix sfx (the exponent markup computed once, from the
anchored first match). -/
def expSubM (sfx : List Char) (l : List Char) : Option (List Char × List Char) :=
  (matchExp l).map (fun r => (r.1 ++ sfx, r.2.2.2))

/-- Post-processing of the formatted magnitude string in
format_magnitude: if _EXP_PATTERN matches at the start of the
string, compute the exponent from that match and substitute every
occurrence of the pattern by group1 folowed by x10 and the
superscripted exponent; otherwise return the string unchanged. -/
def postprocessSci (s : String) : String :=
  match matchExp s.data with
  | none => s
  | some r =>
    let sfx := ("×10<sup>" ++ toString (expValue r.2.1 r.2.2.1) ++ "</sup>").data
    ⟨gsub (expSubM sfx) s.data⟩

/-- Shape of a magnitude as the source code inspects it: a numpy
ndarray of some dimension (arrStr is the string format(magnitude)
produces for it under the installed printoptions), a non-iterable
plain scalar, or some other iterable. -/
inductive MagShape where
  | ndarr (ndim : Nat) (arrStr : String)
  | noniter
  | iter
deriving DecidableEq

/-- A magnitude as observed by the formatter: the optional result
of a self-rendering method, the shape used for dispatch, and the
locale-aware number formatter applied to it as a function of the
format spec (an external collaborator). -/
structure Mag where
  reprHtml : Option String
  shape : MagShape
  fmtNum : String → String

/-- Python iterable(magnitude) as used by format_quantity: ndarrays
(including zero-dimensional ones, per the source comment) and other
iterables are iterable, plain scalars are not. -/
def Mag.iterableB (m : Mag) : Bool :=
  match m.shape with
  | .ndarr _ _ => true
  | .noniter => false
  | .iter => true

/-- Remove every newline character, as str.replace of a newline
with the empty string. -/
def stripNl (s : String) : String :=
  ⟨s.data.filter (fun c => c ≠ '\n')⟩

/-- Replace every newline character by the break tag, as
str.replace of a newline with the tag. -/
def nlToBr (s : String) : String :=
  ⟨s.data.foldr (fun c acc => if c = '\n' then "<br>".data ++ acc else c :: acc) []⟩

/-- The string built by format_magnitude before post-processing:
self-rendered markup verbatim; for ndarrays the 0-dim case uses the
number formatter and higher dimensions the array rendering with
newlines stripped, wrapped in a monospace block; plain scalars use
the number formatter; other iterables use the number formatter with
newlines turned into break tags, wrapped in a monospace block. -/
def mstrOf (m : Mag) (mspec : String) : String :=
  match m.reprHtml with
  | some h => h
  | none =>
    match m.shape with
    | .ndarr 0 _ => m.fmtNum mspec
    | .ndarr (_ + 1) arrStr => "<pre>" ++ stripNl arrStr ++ "</pre>"
    | .noniter => m.fmtNum mspec
    | .iter => "<pre>" ++ nlToBr (m.fmtNum mspec) ++ "</pre>"

/-- HTMLFormatter.format_magnitude: build the magnitude string and
post-process scientific notation. -/
def format_magnitude (m : Mag) (mspec : String) : String :=
  postprocessSci (mstrOf m mspec)

/-- The replacement text for the plus-minus marker. -/
def pmRepl : List Char := " &plusmn; ".data

/-- Python str.replace of the plus-minus marker by the plus-minus
entity: left-to-right scan replacing every non-overlapping
occurrence. -/
def replacePM : List Char → List Char
  | '+' :: '/' :: '-' :: cs => pmRepl ++ replacePM cs
  | c :: cs => c :: replacePM cs
  | [] => []

/-- Whether the list starts with the three-character plus-minus
marker. -/
def startsPM : List Char → Bool
  | '+' :: '/' :: '-' :: _ => true
  | _ => false

/-- Whether the plus-minus marker occurs anywhere in the list. -/
def hasPM : List Char → Bool
  | [] => false
  | c :: cs => startsPM (c :: cs) || hasPM cs

/-- Deterministic matcher-with-replacement for the positive
uncertainty rewrite of the source, a closing parenthesis followed
by e, a plus sign, an optional single zero and a digit group: on a
match returns the replacement (parenthesis, x10, superscripted
digit group) and the rest. The optional zero is consumed exactly
when it is followed by at least one more digit. -/
def matchEPlus : List Char → Option (List Char × List Char)
  | ')' :: 'e' :: '+' :: cs =>
    match takeDigits cs with
    | ([], _) => none
    | (d :: ds, rest) =>
      some ((")×10<sup>").data ++ (if d = '0' ∧ ds ≠ [] then ds else d :: ds) ++
        "</sup>".data, rest)
  | _ => none

/-- Deterministic matcher-with-replacement for the negative
uncertainty rewrite of the source, identical to the positive one
except that the sign is a minus and the superscript keeps it. -/
def matchEMinus : List Char → Option (List Char × List Char)
  | ')' :: 'e' :: '-' :: cs =>
    match takeDigits cs with
    | ([], _) => none
    | (d :: ds, rest) =>
      some ((")×10<sup>-").data ++ (if d = '0' ∧ ds ≠ [] then ds else d :: ds) ++
        "</sup>".data, rest)
  | _ => none

/-- HTMLFormatter.format_uncertainty: the uncertainty composite is
embedded as its format function (its external string conversion as
a function of the spec). The rendering has every plus-minus marker
replaced by the entity, then the positive and the negative
scientific-suffix substitutions are applied in that order. -/
def format_uncertainty (uncertainty : String → String) (unc_spec : String) : String :=
  ⟨gsub matchEMinus (gsub matchEPlus (replacePM (uncertainty unc_spec).data))⟩

/-- Rendering of one (symbol, exponent) factor with the html power
template: exponent one is the bare symbol, any other exponent uses
the superscript template. -/
def powTerm (p : String × Int) : String :=
  if p.2 = 1 then p.1 else p.1 ++ "<sup>" ++ toString p.2 ++ "</sup>"

/-- Join a list of rendered factors with the product separator, a
single space. -/
def joinSpace : List String → String
  | [] => ""
  | [s] => s
  | s :: rest => s ++ " " ++ joinSpace rest

/-- Modelled from the spec: the generic fraction and power renderer
(the helper named formatter in pint.delegates.formatter._helpers,
not part of the shown sources) at the arguments format_unit passes:
as_ratio and single_denominator true, product separator a single
space, division and power and parentheses templates as in the
source. Factors with negative exponent are collected into one
shared denominator whose exponents are shown positive; the
denominator is parenthesised when it has more than one factor; an
empty numerator renders as one. -/
def htmlUnitFormatter (units : List (String × Int)) : String :=
  match units with
  | [] => ""
  | _ =>
    let num := units.filter (fun p => 0 ≤ p.2)
    let den := units.filter (fun p => p.2 < 0)
    let numStr := if num = [] then "1" else joinSpace (num.map powTerm)
    match den with
    | [] => numStr
    | [d] => numStr ++ "/" ++ powTerm (d.1, -d.2)
    | ds => numStr ++ "/" ++ "(" ++ joinSpace (ds.map (fun p => powTerm (p.1, -p.2))) ++ ")"

/-- HTMLFormatter.format_unit: the compound-unit collaborator
format_compound_unit is external, so the unit is embedded as the
sequence of (symbol, exponent) pairs that collaborator returns;
the pairs are rendered with the html fragment templates. -/
def format_unit (units : List (String × Int)) (_uspec : String) : String :=
  htmlUnitFormatter units

/-- Modelled from the spec: the join-with-template helper join_mu
from pint.delegates.formatter._helpers, not part of the shown
sources; it special-cases an empty unit string, returning the bare
magnitude string with the separating space or structure omitted,
and otherwise applies the joint template to the magnitude and unit
strings. Templates are embedded as Lean functions. -/
def join_mu (t : String → String → String) (mstr ustr : String) : String :=
  if ustr = "" then mstr else t mstr ustr

/-- The scalar joint template of format_quantity, magnitude and
unit separated by one space. -/
def scalarTemplate (mstr ustr : String) : String :=
  mstr ++ " " ++ ustr

/-- The iterable joint template of format_quantity: a two-row html
table whose row labels are Magnitude and Units with left-aligned
cell content. -/
def tableTemplate (mstr ustr : String) : String :=
  "<table><tbody><tr><th>Magnitude</th><td style=\x27text-align:left;\x27>" ++ mstr ++
    "</td></tr><tr><th>Units</th><td style=\x27text-align:left;\x27>" ++ ustr ++
    "</td></tr></tbody></table>"

/-- A quantity as the formatter sees it: a magnitude, the compound
sequence of its units, and the owning registry defaults consulted
by the spec splitter. -/
structure Quantity where
  mag : Mag
  units : List (String × Int)
  defaultFormat : String
  separateFormatDefaults : Bool

/-- HTMLFormatter.format_quantity: split the spec with the external
splitter (passed as a parameter, applied to the spec and the
registry defaults), pick the table template for iterable magnitudes
and the plain template otherwise, and join the formatted magnitude
and unit. -/
def format_quantity (split : String → String → Bool → String × String)
    (q : Quantity) (qspec : String) : String :=
  let sp := split qspec q.defaultFormat q.separateFormatDefaults
  let t := if q.mag.iterableB then tableTemplate else scalarTemplate
  join_mu t (format_magnitude q.mag sp.1) (format_unit q.units sp.2)

/-- Modelled from the spec: the join helper join_unc from
pint.delegates.formatter._helpers, not part of the shown sources;
it joins with the fixed outer template and puts the parenthesis
markers around the uncertainty rendering. -/
def join_unc (lpar rpar : String) (uncStr ustr : String) : String :=
  lpar ++ uncStr ++ rpar ++ " " ++ ustr

/-- A measurement as the formatter sees it: its magnitude embedded
as the external string conversion of the uncertainty composite, the
compound sequence of its units, and the registry defaults. -/
structure Measurement where
  renderUnc : String → String
  units : List (String × Int)
  defaultFormat : String
  separateFormatDefaults : Bool

/-- HTMLFormatter.format_measurement: split the spec with the
external splitter; derive the uncertainty spec by applying the
external custom-flag remover to the whole spec, not to the split
magnitude spec; join the uncertainty rendering (parenthesised) with
the unit rendering obtained from the split unit spec. -/
def format_measurement (split : String → String → Bool → String × String)
    (removeCustomFlags : String → String)
    (meas : Measurement) (meas_spec : String) : String :=
  let sp := split meas_spec meas.defaultFormat meas.separateFormatDefaults
  let unc_spec := removeCustomFlags meas_spec
  join_unc "(" ")"
    (format_uncertainty meas.renderUnc unc_spec)
    (format_unit meas.units sp.2)

/-- The ambient locale state, a single global value as in the
Python locale module. -/
structure LocaleSt where
  cur : String
deriving DecidableEq

/-- Modelled from the spec: the scoped locale override
override_locale from pint.delegates.formatter._unit_handlers, not
part of the shown sources. It saves the prior locale state, installs
the requested locale when one is given, runs the body (which may
raise, embedded as Except), and restores the saved state on both
the normal and the raising exit path. -/
def override_locale (loc : Option String) (st : LocaleSt)
    (body : LocaleSt → Except String String) : Except String String × LocaleSt :=
  match loc with
  | none => (body st, st)
  | some l =>
    let saved := st
    match body ⟨l⟩ with
    | .ok v => (.ok v, saved)
    | .error e => (.error e, saved)

/-- format_magnitude as executed under the scoped locale override:
inside the scope the body builds the magnitude string with a number
formatter that may depend on the active locale and may raise; the
scientific-notation post-processing happens after the scope exits,
as in the source. -/
def format_magnitude_loc (loc : Option String) (st : LocaleSt)
    (mk : LocaleSt → Except String Mag) (mspec : String) :
    Except String String × LocaleSt :=
  let r := override_locale loc st (fun active => (mk active).map (fun m => mstrOf m mspec))
  (r.1.map postprocessSci, r.2)

/-- A scientific-notation literal assembled from its parts: a
leading digit, an optional dot with fractional digits, the letter
e, an optional minus sign, an optional plus sign, and the exponent
digits. -/
def sciLit (d : Char) (hasDot : Bool) (frac : List Char) (neg plus : Bool)
    (eds : List Char) : String :=
  ⟨d :: (if hasDot then '.' :: frac else frac) ++
    'e' :: ((if neg then ['-'] else []) ++ (if plus then ['+'] else []) ++ eds)⟩

/-- The mantissa part of such a literal. -/
def mantOf (d : Char) (hasDot : Bool) (frac : List Char) : String :=
  ⟨d :: (if hasDot then '.' :: frac else frac)⟩

/-- The signed exponent value of such a literal, an integer built
from the sign flag and the digit group as the source does with
int(). -/
def sciExpVal (neg : Bool) (eds : List Char) : Int :=
  if neg then -(digitsToNat eds : Int) else (digitsToNat eds : Int)

lemma takeDigits_all (ds : List Char) (h : ∀ c ∈ ds, c.isDigit) :
    takeDigits ds = (ds, []) := by
  induction ds with
  | nil => rfl
  | cons c cs ih =>
    have hc : c.isDigit := h c (List.mem_cons_self c cs)
    have := ih (fun x hx => h x (List.mem_cons_of_mem c hx))
    simp [takeDigits, hc, this]

lemma takeDigits_append (ds : List Char) (h : ∀ c ∈ ds, c.isDigit)
    (c : Char) (hc : ¬ c.isDigit) (r : List Char) :
    takeDigits (ds ++ c :: r) = (ds, c :: r) := by
  induction ds with
  | nil => simp [takeDigits, hc]
  | cons d dtl ih =>
    have hd : d.isDigit := h d (List.mem_cons_self d dtl)
    have := ih (fun x hx => h x (List.mem_cons_of_mem d hx))
    simp [takeDigits, hd, this]

lemma takeDigits_snd_length (l : List Char) : (takeDigits l).2.length ≤ l.length := by
  induction l with
  | nil => simp [takeDigits]
  | cons c cs ih =>
    by_cases hc : c.isDigit
    · simp only [takeDigits, hc, if_pos]
      exact le_trans ih (Nat.le_succ _)
    · simp [takeDigits, hc]

lemma parseG1Tail_snd_length (l : List Char) : (parseG1Tail l).2.length ≤ l.length := by
  unfold parseG1Tail
  split
  · next cs2 =>
    simpa using le_trans (takeDigits_snd_length cs2) (Nat.le_succ _)
  · exact takeDigits_snd_length _

lemma parseSign_snd_length (l : List Char) : (parseSign l).2.length ≤ l.length := by
  unfold parseSign
  split
  · simp
  · simp

lemma parsePlus_length (l : List Char) : (parsePlus l).length ≤ l.length := by
  unfold parsePlus
  split
  · simp
  · simp

lemma matchExp_rest_length (l : List Char) (g1 g2 g3 rest : List Char)
    (h : matchExp l = some (g1, g2, g3, rest)) : rest.length < l.length := by
  match l with
  | [] => simp [matchExp] at h
  | c :: cs =>
    rw [matchExp] at h
    split at h
    · split at h
      · next g1tail rest2 heq =>
        split at h
        · exact absurd h (by simp)
        · next d ds rst hrun =>
          simp only [Option.some.injEq, Prod.mk.injEq] at h
          obtain ⟨-, -, -, hrest⟩ := h
          have hp := parseG1Tail_snd_length cs
          rw [heq] at hp
          have h1 := takeDigits_snd_length (parsePlus (parseSign rest2).2)
          rw [hrun] at h1
          simp only at h1
          have h2 := parsePlus_length (parseSign rest2).2
          have h3 := parseSign_snd_length rest2
          simp only [List.length_cons] at hp
          subst hrest
          simp only [List.length_cons]
          omega
      · exact absurd h (by simp)
    · exact absurd h (by simp)

/-- A matcher is shrinking when every successful match consumes at
least one character of the input. -/
def Shrinking (M : List Char → Option (List Char × List Char)) : Prop :=
  ∀ l out rest, M l = some (out, rest) → rest.length < l.length

lemma expSubM_shrinking (sfx : List Char) : Shrinking (expSubM sfx) := by
  intro l out rest h
  unfold expSubM at h
  cases hm : matchExp l with
  | none => rw [hm] at h; simp at h
  | some r =>
    rw [hm] at h
    simp at h
    obtain ⟨-, hrest⟩ := h
    subst hrest
    exact matchExp_rest_length l r.1 r.2.1 r.2.2.1 r.2.2.2 hm

lemma matchEPlus_shrinking : Shrinking matchEPlus := by
  intro l out rest h
  unfold matchEPlus at h
  split at h
  · next cs =>
    split at h
    · exact absurd h (by simp)
    · next d ds rst hrun =>
      simp only [Option.some.injEq, Prod.mk.injEq] at h
      obtain ⟨-, hrest⟩ := h
      subst hrest
      have := takeDigits_snd_length cs
      rw [hrun] at this
      simp only at this
      simp only [List.length_cons]
      omega
  · exact absurd h (by simp)

lemma matchEMinus_shrinking : Shrinking matchEMinus := by
  intro l out rest h
  unfold matchEMinus at h
  split at h
  · next cs =>
    split at h
    · exact absurd h (by simp)
    · next d ds rst hrun =>
      simp only [Option.some.injEq, Prod.mk.injEq] at h
      obtain ⟨-, hrest⟩ := h
      subst hrest
      have := takeDigits_snd_length cs
      rw [hrun] at this
      simp only at this
      simp only [List.length_cons]
      omega
  · exact absurd h (by simp)

lemma gsubAux_fuel {M : List Char → Option (List Char × List Char)} (hM : Shrinking M) :
    ∀ (f f' : Nat) (l : List Char), l.length ≤ f → l.length ≤ f' →
      gsubAux M f l = gsubAux M f' l := by
  intro f
  induction f with
  | zero =>
    intro f' l h h'
    have : l = [] := List.eq_nil_of_length_eq_zero (Nat.le_zero.mp h)
    subst this
    cases f' <;> rfl
  | succ g ih =>
    intro f' l h h'
    cases l with
    | nil => cases f' <;> rfl
    | cons c cs =>
      cases f' with
      | zero => simp at h'
      | succ g' =>
        simp only [List.length_cons, Nat.succ_le_succ_iff] at h h'
        rw [gsubAux, gsubAux]
        cases hm : M (c :: cs) with
        | none =>
          simp only
          rw [ih g' cs h h']
        | some r =>
          simp only
          have hr := hM (c :: cs) r.1 r.2 (by rw [hm])
          simp only [List.length_cons] at hr
          rw [ih g' r.2 (by omega) (by omega)]

lemma gsub_nil (M : List Char → Option (List Char × List Char)) : gsub M [] = [] := rfl

lemma gsub_cons_match {M : List Char → Option (List Char × List Char)} (hM : Shrinking M)
    (c : Char) (cs out rest : List Char) (h : M (c :: cs) = some (out, rest)) :
    gsub M (c :: cs) = out ++ gsub M rest := by
  have hr := hM (c :: cs) out rest h
  simp only [List.length_cons] at hr
  unfold gsub
  simp only [List.length_cons]
  rw [gsubAux, h]
  show out ++ gsubAux M cs.length rest = out ++ gsubAux M rest.length rest
  congr 1
  exact gsubAux_fuel hM cs.length rest.length rest (by omega) (le_refl _)

lemma gsub_cons_nomatch {M : List Char → Option (List Char × List Char)}
    (c : Char) (cs : List Char) (h : M (c :: cs) = none) :
    gsub M (c :: cs) = c :: gsub M cs := by
  unfold gsub
  simp only [List.length_cons]
  rw [gsubAux, h]

lemma parseG1Tail_nondot (c : Char) (cs : List Char) (hc : c ≠ '.') :
    parseG1Tail (c :: cs) = takeDigits (c :: cs) := by
  unfold parseG1Tail
  split
  · next heq =>
    injection heq with h1 h2
    exact absurd h1 hc
  · rfl

lemma parseG1Tail_dot (cs2 : List Char) :
    parseG1Tail ('.' :: cs2) = ('.' :: (takeDigits cs2).1, (takeDigits cs2).2) := rfl

lemma parseSign_nonminus (c : Char) (cs : List Char) (hc : c ≠ '-') :
    parseSign (c :: cs) = ([], c :: cs) := by
  unfold parseSign
  split
  · next heq =>
    injection heq with h1 h2
    exact absurd h1 hc
  · rfl

lemma parsePlus_nonplus (c : Char) (cs : List Char) (hc : c ≠ '+') :
    parsePlus (c :: cs) = c :: cs := by
  unfold parsePlus
  split
  · next heq =>
    injection heq with h1 h2
    exact absurd h1 hc
  · rfl

lemma isDigit_ne (c c' : Char) (h : c.isDigit) (h' : c'.isDigit = false) : c ≠ c' := by
  intro he
  rw [he, h'] at h
  cases h

lemma parseG1Tail_sci (hasDot : Bool) (frac : List Char)
    (hfrac : ∀ c ∈ frac, c.isDigit) (t : List Char) :
    parseG1Tail ((if hasDot then '.' :: frac else frac) ++ 'e' :: t) =
      ((if hasDot then '.' :: frac else frac), 'e' :: t) := by
  have hE : ('e').isDigit = false := by decide
  cases hasDot with
  | true =>
    show parseG1Tail ('.' :: (frac ++ 'e' :: t)) = ('.' :: frac, 'e' :: t)
    rw [parseG1Tail_dot, takeDigits_append frac hfrac 'e' (by simp [hE]) t]
  | false =>
    show parseG1Tail (frac ++ 'e' :: t) = (frac, 'e' :: t)
    cases frac with
    | nil =>
      show parseG1Tail ('e' :: t) = ([], 'e' :: t)
      rw [parseG1Tail_nondot 'e' t (by decide)]
      have := takeDigits_append [] (by simp) 'e' (by simp [hE]) t
      simpa using this
    | cons f0 frac1 =>
      have hf0 : f0.isDigit := hfrac f0 (List.mem_cons_self f0 frac1)
      show parseG1Tail (f0 :: (frac1 ++ 'e' :: t)) = (f0 :: frac1, 'e' :: t)
      rw [parseG1Tail_nondot f0 _ (isDigit_ne f0 '.' hf0 (by decide))]
      have := takeDigits_append (f0 :: frac1) hfrac 'e' (by simp [hE]) t
      simpa using this

lemma expTail_sign_sci (neg plus : Bool) (eds : List Char)
    (heds : ∀ c ∈ eds, c.isDigit) (hne : eds ≠ []) :
    parseSign ((if neg then ['-'] else []) ++ (if plus then ['+'] else []) ++ eds) =
      ((if neg then ['-'] else []), (if plus then ['+'] else []) ++ eds) := by
  cases neg with
  | true =>
    show parseSign ('-' :: ((if plus then ['+'] else []) ++ eds)) =
      (['-'], (if plus then ['+'] else []) ++ eds)
    rfl
  | false =>
    show parseSign ((if plus then ['+'] else []) ++ eds) =
      ([], (if plus then ['+'] else []) ++ eds)
    cases plus with
    | true =>
      show parseSign ('+' :: eds) = ([], '+' :: eds)
      exact parseSign_nonminus '+' eds (by decide)
    | false =>
      show parseSign eds = ([], eds)
      cases eds with
      | nil => exact absurd rfl hne
      | cons e0 es =>
        exact parseSign_nonminus e0 es
          (isDigit_ne e0 '-' (heds e0 (List.mem_cons_self e0 es)) (by decide))

lemma expTail_plus_sci (plus : Bool) (eds : List Char)
    (heds : ∀ c ∈ eds, c.isDigit) (hne : eds ≠ []) :
    parsePlus ((if plus then ['+'] else []) ++ eds) = eds := by
  cases plus with
  | true =>
    show parsePlus ('+' :: eds) = eds
    rfl
  | false =>
    show parsePlus eds = eds
    cases eds with
    | nil => exact absurd rfl hne
    | cons e0 es =>
      exact parsePlus_nonplus e0 es
        (isDigit_ne e0 '+' (heds e0 (List.mem_cons_self e0 es)) (by decide))

lemma matchExp_sciLit (d : Char) (hasDot : Bool) (frac : List Char)
    (neg plus : Bool) (eds : List Char)
    (hd : d.isDigit) (hfrac : ∀ c ∈ frac, c.isDigit)
    (heds : ∀ c ∈ eds, c.isDigit) (hne : eds ≠ []) :
    matchExp (sciLit d hasDot frac neg plus eds).data =
      some (d :: (if hasDot then '.' :: frac else frac),
        (if neg then ['-'] else []), expGroup3 eds, []) := by
  show matchExp (d :: ((if hasDot then '.' :: frac else frac) ++
    'e' :: ((if neg then ['-'] else []) ++ (if plus then ['+'] else []) ++ eds))) = _
  rw [matchExp, if_pos hd]
  rw [parseG1Tail_sci hasDot frac hfrac _]
  simp only
  rw [expTail_sign_sci neg plus eds heds hne]
  simp only
  rw [expTail_plus_sci plus eds heds hne]
  rw [takeDigits_all eds heds]
  cases eds with
  | nil => exact absurd rfl hne
  | cons e0 es => rfl

lemma digitsToNat_dropZeros (l : List Char) :
    digitsToNat (l.dropWhile (fun x => x = '0')) = digitsToNat l := by
  induction l with
  | nil => rfl
  | cons c cs ih =>
    by_cases hc : c = '0'
    · subst hc
      rw [List.dropWhile_cons_of_pos (by simp)]
      rw [ih]
      show digitsToNat cs = List.foldl _ (10 * 0 + ('0'.toNat - '0'.toNat)) cs
      norm_num
      rfl
    · rw [List.dropWhile_cons_of_neg (by simp [hc])]

lemma digitsToNat_expGroup3 (eds : List Char) :
    digitsToNat (expGroup3 eds) = digitsToNat eds := by
  unfold expGroup3
  by_cases hs : eds.dropWhile (fun x => x = '0') = []
  · rw [if_pos hs]
    rw [← digitsToNat_dropZeros eds, hs]
    rfl
  · rw [if_neg hs, digitsToNat_dropZeros]

lemma expValue_sciLit (neg : Bool) (eds : List Char) :
    expValue (if neg then ['-'] else []) (expGroup3 eds) = sciExpVal neg eds := by
  unfold expValue sciExpVal
  cases neg with
  | true => simp [digitsToNat_expGroup3]
  | false => simp [digitsToNat_expGroup3]

lemma postprocessSci_none (s : String) (h : matchExp s.data = none) :
    postprocessSci s = s := by
  unfold postprocessSci
  rw [h]

lemma postprocessSci_some (s : String) (r : List Char × List Char × List Char × List Char)
    (h : matchExp s.data = some r) :
    postprocessSci s =
      ⟨gsub (expSubM (("×10<sup>" ++ toString (expValue r.2.1 r.2.2.1) ++ "</sup>").data))
        s.data⟩ := by
  unfold postprocessSci
  rw [h]

lemma postprocessSci_sciLit (d : Char) (hasDot : Bool) (frac : List Char)
    (neg plus : Bool) (eds : List Char)
    (hd : d.isDigit) (hfrac : ∀ c ∈ frac, c.isDigit)
    (heds : ∀ c ∈ eds, c.isDigit) (hne : eds ≠ []) :
    postprocessSci (sciLit d hasDot frac neg plus eds) =
      mantOf d hasDot frac ++ "×10<sup>" ++ toString (sciExpVal neg eds) ++ "</sup>" := by
  have hm := matchExp_sciLit d hasDot frac neg plus eds hd hfrac heds hne
  rw [postprocessSci_some _ _ hm]
  simp only
  rw [expValue_sciLit neg eds]
  have hsub : expSubM (("×10<sup>" ++ toString (sciExpVal neg eds) ++ "</sup>").data)
      (sciLit d hasDot frac neg plus eds).data =
      some ((d :: (if hasDot then '.' :: frac else frac)) ++
        ("×10<sup>" ++ toString (sciExpVal neg eds) ++ "</sup>").data, []) := by
    unfold expSubM
    rw [hm]
    rfl
  have hdata : (sciLit d hasDot frac neg plus eds).data =
      d :: ((if hasDot then '.' :: frac else frac) ++
        'e' :: ((if neg then ['-'] else []) ++ (if plus then ['+'] else []) ++ eds)) := rfl
  rw [hdata] at hsub
  rw [hdata]
  rw [gsub_cons_match (expSubM_shrinking _) _ _ _ _ hsub, gsub_nil, List.append_nil]
  apply String.ext
  simp only [String.data_append]
  have hmant : (mantOf d hasDot frac).data = d :: (if hasDot then '.' :: frac else frac) := rfl
  rw [hmant]
  simp [List.append_assoc]

lemma matchExp_cons_nondigit (c : Char) (cs : List Char) (hc : c.isDigit = false) :
    matchExp (c :: cs) = none := by
  rw [matchExp, hc]
  rfl

lemma takeDigits_digits_append (eds : List Char) (heds : ∀ c ∈ eds, c.isDigit)
    (t : List Char) (ht : ∀ c cs', t = c :: cs' → c.isDigit = false) :
    takeDigits (eds ++ t) = (eds, t) := by
  cases t with
  | nil =>
    rw [List.append_nil]
    exact takeDigits_all eds heds
  | cons c cs' =>
    exact takeDigits_append eds heds c (by simp [ht c cs' rfl]) cs'

lemma expTail_sign_append (neg plus : Bool) (l : List Char)
    (hl : ∀ c cs', l = c :: cs' → c.isDigit) :
    parseSign ((if neg then ['-'] else []) ++ (if plus then ['+'] else []) ++ l) =
      ((if neg then ['-'] else []), (if plus then ['+'] else []) ++ l) := by
  cases neg with
  | true =>
    show parseSign ('-' :: ((if plus then ['+'] else []) ++ l)) =
      (['-'], (if plus then ['+'] else []) ++ l)
    rfl
  | false =>
    show parseSign ((if plus then ['+'] else []) ++ l) =
      ([], (if plus then ['+'] else []) ++ l)
    cases plus with
    | true =>
      show parseSign ('+' :: l) = ([], '+' :: l)
      exact parseSign_nonminus '+' l (by decide)
    | false =>
      show parseSign l = ([], l)
      cases l with
      | nil => rfl
      | cons c cs' =>
        exact parseSign_nonminus c cs'
          (isDigit_ne c '-' (hl c cs' rfl) (by decide))

lemma expTail_plus_append (plus : Bool) (l : List Char)
    (hl : ∀ c cs', l = c :: cs' → c.isDigit) :
    parsePlus ((if plus then ['+'] else []) ++ l) = l := by
  cases plus with
  | true =>
    show parsePlus ('+' :: l) = l
    rfl
  | false =>
    show parsePlus l = l
    cases l with
    | nil => rfl
    | cons c cs' =>
      exact parsePlus_nonplus c cs'
        (isDigit_ne c '+' (hl c cs' rfl) (by decide))

lemma matchExp_sciLit_append (d : Char) (hasDot : Bool) (frac : List Char)
    (neg plus : Bool) (eds : List Char) (t : List Char)
    (hd : d.isDigit) (hfrac : ∀ c ∈ frac, c.isDigit)
    (heds : ∀ c ∈ eds, c.isDigit) (hne : eds ≠ [])
    (ht : ∀ c cs', t = c :: cs' → c.isDigit = false) :
    matchExp ((sciLit d hasDot frac neg plus eds).data ++ t) =
      some (d :: (if hasDot then '.' :: frac else frac),
        (if neg then ['-'] else []), expGroup3 eds, t) := by
  have hshape : (sciLit d hasDot frac neg plus eds).data ++ t =
      d :: ((if hasDot then '.' :: frac else frac) ++
        'e' :: ((if neg then ['-'] else []) ++ (if plus then ['+'] else []) ++ (eds ++ t))) := by
    show (d :: ((if hasDot then '.' :: frac else frac) ++
      'e' :: ((if neg then ['-'] else []) ++ (if plus then ['+'] else []) ++ eds))) ++ t = _
    simp [List.append_assoc]
  rw [hshape, matchExp, if_pos hd]
  rw [parseG1Tail_sci hasDot frac hfrac _]
  simp only
  have hlhead : ∀ c cs', eds ++ t = c :: cs' → c.isDigit := by
    intro c cs' h
    cases eds with
    | nil => exact absurd rfl hne
    | cons e0 es =>
      rw [List.cons_append] at h
      injection h with h1 h2
      exact h1 ▸ heds e0 (List.mem_cons_self e0 es)
  rw [expTail_sign_append neg plus (eds ++ t) hlhead]
  simp only
  rw [expTail_plus_append plus (eds ++ t) hlhead]
  rw [takeDigits_digits_append eds heds t ht]
  cases eds with
  | nil => exact absurd rfl hne
  | cons e0 es => rfl

lemma gsub_full_match {M : List Char → Option (List Char × List Char)} (hM : Shrinking M)
    (a out : List Char) (h : M a = some (out, [])) (ha : a ≠ []) : gsub M a = out := by
  cases a with
  | nil => exact absurd rfl ha
  | cons c a' =>
    rw [gsub_cons_match hM c a' out [] h, gsub_nil, List.append_nil]

lemma gsub_full_match_front {M : List Char → Option (List Char × List Char)}
    (hM : Shrinking M) (a out t : List Char) (h : M (a ++ t) = some (out, t))
    (ha : a ≠ []) : gsub M (a ++ t) = out ++ gsub M t := by
  cases a with
  | nil => exact absurd rfl ha
  | cons c a' =>
    rw [List.cons_append] at h ⊢
    exact gsub_cons_match hM c (a' ++ t) out t h

/-- C1: for a plain scalar magnitude and the empty spec,
format_magnitude returns the locale formatter rendering unchanged
when no scientific notation is matched at the start, and rewrites a
scientific-notation rendering (optional leading plus and zero
padding on the exponent tolerated) into the mantissa followed by
x10 and the superscripted signed exponent reconstructed from the
sign and digit groups; in particular 1.5e+10 becomes
1.5×10<sup>10</sup> and 1.5e-10 becomes 1.5×10<sup>-10</sup>. -/
theorem C1_scalar_magnitude_sci :
    (∀ f : String → String,
      format_magnitude ⟨none, .noniter, f⟩ "" = postprocessSci (f "")) ∧
    (∀ f : String → String, matchExp (f "").data = none →
      format_magnitude ⟨none, .noniter, f⟩ "" = f "") ∧
    (∀ (f : String → String) (d : Char) (hasDot : Bool) (frac : List Char)
      (neg plus : Bool) (eds : List Char),
      d.isDigit → (∀ c ∈ frac, c.isDigit) → (∀ c ∈ eds, c.isDigit) → eds ≠ [] →
      f "" = sciLit d hasDot frac neg plus eds →
      format_magnitude ⟨none, .noniter, f⟩ "" =
        mantOf d hasDot frac ++ "×10<sup>" ++ toString (sciExpVal neg eds) ++ "</sup>") ∧
    format_magnitude ⟨none, .noniter, fun _ => "1.5e+10"⟩ "" = "1.5×10<sup>10</sup>" ∧
    format_magnitude ⟨none, .noniter, fun _ => "1.5e-10"⟩ "" = "1.5×10<sup>-10</sup>" := by
  refine ⟨fun f => rfl, fun f h => postprocessSci_none _ h, ?_, by decide, by decide⟩
  intro f d hasDot frac neg plus eds hd hfrac heds hne hf
  show postprocessSci (f "") = _
  rw [hf]
  exact postprocessSci_sciLit d hasDot frac neg plus eds hd hfrac heds hne

/-- Witness for C1: the pass-through conjunct at a rendering with
no scientific notation and the general rewrite conjunct at the
rendering 9.25e-042. -/
theorem C1_witness :
    format_magnitude ⟨none, .noniter, fun _ => "150.5"⟩ "" = "150.5" ∧
    format_magnitude ⟨none, .noniter, fun _ => "9.25e-042"⟩ "" = "9.25×10<sup>-42</sup>" := by
  constructor
  · exact C1_scalar_magnitude_sci.2.1 (fun _ => "150.5") (by decide)
  · have h := C1_scalar_magnitude_sci.2.2.1 (fun _ => "9.25e-042") '9' true ['2', '5']
      true false ['0', '4', '2'] (by decide) (by decide) (by decide) (by decide) (by decide)
    exact h.trans (by decide)

/-- C9: the scientific-notation rewrite is opportunistic; whenever
the built magnitude string does not match the pattern at its start,
format_magnitude returns it unchanged. -/
theorem C9_no_match_passthrough :
    ∀ (m : Mag) (mspec : String), matchExp (mstrOf m mspec).data = none →
      format_magnitude m mspec = mstrOf m mspec := by
  intro m mspec h
  exact postprocessSci_none _ h

/-- Witness for C9: a rendering with no scientific notation passes
through unchanged. -/
theorem C9_witness :
    format_magnitude ⟨none, .noniter, fun _ => "hello world"⟩ "" = "hello world" :=
  C9_no_match_passthrough ⟨none, .noniter, fun _ => "hello world"⟩ "" (by decide)

/-- C10: the rewrite is gated on a match anchored at the start, so
any built string whose first character is not a digit is returned
unchanged; in particular the monospace-wrapped rendering of a
higher-dimensional array is never rewritten even when it contains
scientific-notation substrings. -/
theorem C10_nondigit_start_unchanged :
    (∀ (m : Mag) (mspec : String) (c : Char) (cs : List Char),
      (mstrOf m mspec).data = c :: cs → c.isDigit = false →
      format_magnitude m mspec = mstrOf m mspec) ∧
    (∀ (n : Nat) (arrStr : String) (f : String → String) (mspec : String),
      format_magnitude ⟨none, .ndarr (n + 1) arrStr, f⟩ mspec =
        "<pre>" ++ stripNl arrStr ++ "</pre>") ∧
    format_magnitude ⟨none, .ndarr 1 "[1.5e+10 2.5e-10]", fun _ => ""⟩ "" =
      "<pre>[1.5e+10 2.5e-10]</pre>" := by
  have key : ∀ (m : Mag) (mspec : String) (c : Char) (cs : List Char),
      (mstrOf m mspec).data = c :: cs → c.isDigit = false →
      format_magnitude m mspec = mstrOf m mspec := by
    intro m mspec c cs hdata hc
    apply postprocessSci_none
    rw [hdata]
    exact matchExp_cons_nondigit c cs hc
  refine ⟨key, ?_, by decide⟩
  intro n arrStr f mspec
  have hshape : mstrOf ⟨none, .ndarr (n + 1) arrStr, f⟩ mspec =
      "<pre>" ++ stripNl arrStr ++ "</pre>" := rfl
  have hdata : (mstrOf ⟨none, .ndarr (n + 1) arrStr, f⟩ mspec).data =
      '<' :: ("pre>".data ++ (stripNl arrStr).data ++ "</pre>".data) := by
    rw [hshape]
    simp [String.data_append]
  rw [key ⟨none, .ndarr (n + 1) arrStr, f⟩ mspec _ _ hdata (by decide)]
  exact hshape

/-- Witness for C10: a self-rendered markup string beginning with a
tag is returned unchanged despite an internal scientific-notation
substring. -/
theorem C10_witness :
    format_magnitude ⟨some "<b>1.5e+10</b>", .noniter, fun _ => ""⟩ "" = "<b>1.5e+10</b>" :=
  C10_nondigit_start_unchanged.1 ⟨some "<b>1.5e+10</b>", .noniter, fun _ => ""⟩ ""
    '<' "b>1.5e+10</b>".data (by decide) (by decide)

/-- C2 counterexample: on a formatted string containing the
scientific-notation pattern twice, format_magnitude rewrites both
occurrences (each with the exponent of the anchored first match),
not only one. -/
theorem C2_counterexample :
    format_magnitude ⟨none, .noniter, fun _ => "1.5e+10 2.5e+3"⟩ "" =
      "1.5×10<sup>10</sup> 2.5×10<sup>10</sup>" ∧
    format_magnitude ⟨none, .noniter, fun _ => "1.5e+10 2.5e+3"⟩ "" ≠
      "1.5×10<sup>10</sup> 2.5e+3" := by
  constructor
  · decide
  · decide

/-- C2 amended: when the pattern matches at the start of the
string, the substitution is applied to every non-overlapping
occurrence in the whole string, each occurrence receiving the
superscripted exponent computed from the anchored first match; in
particular two scientific literals separated by a space are both
rewritten, the second with the exponent of the first. -/
theorem C2_amended :
    (∀ (s : String) (r : List Char × List Char × List Char × List Char),
      matchExp s.data = some r →
      postprocessSci s =
        ⟨gsub (expSubM (("×10<sup>" ++ toString (expValue r.2.1 r.2.2.1) ++ "</sup>").data))
          s.data⟩) ∧
    (∀ (d1 : Char) (dot1 : Bool) (frac1 : List Char) (neg1 plus1 : Bool) (eds1 : List Char)
      (d2 : Char) (dot2 : Bool) (frac2 : List Char) (neg2 plus2 : Bool) (eds2 : List Char),
      d1.isDigit → (∀ c ∈ frac1, c.isDigit) → (∀ c ∈ eds1, c.isDigit) → eds1 ≠ [] →
      d2.isDigit → (∀ c ∈ frac2, c.isDigit) → (∀ c ∈ eds2, c.isDigit) → eds2 ≠ [] →
      postprocessSci ⟨(sciLit d1 dot1 frac1 neg1 plus1 eds1).data ++
          ' ' :: (sciLit d2 dot2 frac2 neg2 plus2 eds2).data⟩ =
        ⟨(mantOf d1 dot1 frac1).data ++
          ("×10<sup>" ++ toString (sciExpVal neg1 eds1) ++ "</sup>").data ++
          ' ' :: ((mantOf d2 dot2 frac2).data ++
            ("×10<sup>" ++ toString (sciExpVal neg1 eds1) ++ "</sup>").data)⟩) := by
  refine ⟨fun s r h => postprocessSci_some s r h, ?_⟩
  intro d1 dot1 frac1 neg1 plus1 eds1 d2 dot2 frac2 neg2 plus2 eds2
  intro hd1 hfrac1 heds1 hne1 hd2 hfrac2 heds2 hne2
  have hL2ne : (sciLit d2 dot2 frac2 neg2 plus2 eds2).data ≠ [] := by
    show d2 :: _ ≠ []
    simp
  have ht : ∀ (c : Char) (cs' : List Char),
      ' ' :: (sciLit d2 dot2 frac2 neg2 plus2 eds2).data = c :: cs' → c.isDigit = false := by
    intro c cs' h
    injection h with h1 h2
    rw [← h1]
    decide
  have hm1 := matchExp_sciLit_append d1 dot1 frac1 neg1 plus1 eds1
    (' ' :: (sciLit d2 dot2 frac2 neg2 plus2 eds2).data) hd1 hfrac1 heds1 hne1 ht
  have hS : (⟨(sciLit d1 dot1 frac1 neg1 plus1 eds1).data ++
      ' ' :: (sciLit d2 dot2 frac2 neg2 plus2 eds2).data⟩ : String).data =
      (sciLit d1 dot1 frac1 neg1 plus1 eds1).data ++
        ' ' :: (sciLit d2 dot2 frac2 neg2 plus2 eds2).data := rfl
  rw [postprocessSci_some _ _ (by rw [hS]; exact hm1)]
  simp only
  rw [expValue_sciLit neg1 eds1]
  have hsub1 : expSubM (("×10<sup>" ++ toString (sciExpVal neg1 eds1) ++ "</sup>").data)
      ((sciLit d1 dot1 frac1 neg1 plus1 eds1).data ++
        ' ' :: (sciLit d2 dot2 frac2 neg2 plus2 eds2).data) =
      some ((d1 :: (if dot1 then '.' :: frac1 else frac1)) ++
        ("×10<sup>" ++ toString (sciExpVal neg1 eds1) ++ "</sup>").data,
        ' ' :: (sciLit d2 dot2 frac2 neg2 plus2 eds2).data) := by
    unfold expSubM
    rw [hm1]
    rfl
  rw [gsub_full_match_front (expSubM_shrinking _) _ _ _ hsub1 (by show d1 :: _ ≠ []; simp)]
  have hnosp : expSubM (("×10<sup>" ++ toString (sciExpVal neg1 eds1) ++ "</sup>").data)
      (' ' :: (sciLit d2 dot2 frac2 neg2 plus2 eds2).data) = none := by
    unfold expSubM
    rw [matchExp_cons_nondigit ' ' _ (by decide)]
    rfl
  rw [gsub_cons_nomatch _ _ hnosp]
  have hm2 := matchExp_sciLit d2 dot2 frac2 neg2 plus2 eds2 hd2 hfrac2 heds2 hne2
  have hsub2 : expSubM (("×10<sup>" ++ toString (sciExpVal neg1 eds1) ++ "</sup>").data)
      (sciLit d2 dot2 frac2 neg2 plus2 eds2).data =
      some ((d2 :: (if dot2 then '.' :: frac2 else frac2)) ++
        ("×10<sup>" ++ toString (sciExpVal neg1 eds1) ++ "</sup>").data, []) := by
    unfold expSubM
    rw [hm2]
    rfl
  rw [gsub_full_match (expSubM_shrinking _) _ _ hsub2 hL2ne]
  apply String.ext
  show _ ++ ' ' :: _ = _
  have hmant1 : (mantOf d1 dot1 frac1).data = d1 :: (if dot1 then '.' :: frac1 else frac1) := rfl
  have hmant2 : (mantOf d2 dot2 frac2).data = d2 :: (if dot2 then '.' :: frac2 else frac2) := rfl
  rw [hmant1, hmant2]

/-- Witness for C2: the amended claim evaluated at the two-literal
string 1.5e+10 2.5e+3 (both occurrences rewritten with the first
exponent) and the whole-string-substitution conjunct at 7e+5. -/
theorem C2_witness :
    postprocessSci "1.5e+10 2.5e+3" = "1.5×10<sup>10</sup> 2.5×10<sup>10</sup>" ∧
    postprocessSci "7e+5" = "7×10<sup>5</sup>" := by
  constructor
  · have h := C2_amended.2 '1' true ['5'] false true ['1', '0'] '2' true ['5'] false true ['3']
      (by decide) (by decide) (by decide) (by decide)
      (by decide) (by decide) (by decide) (by decide)
    exact h.trans (by decide)
  · have h := C2_amended.1 "7e+5" (['7'], [], ['5'], []) (by decide)
    exact h.trans (by decide)

/-- C3: format_unit renders the compounded pairs as a ratio with a
single shared denominator (meter times second to the minus one
gives m/s, not per-term negative exponents), joins multiplicative
terms with one space, renders exponents above one with the
superscript template and omits the markup for exponent one. -/
theorem C3_format_unit_ratio :
    format_unit [("m", 1), ("s", -1)] "" = "m/s" ∧
    format_unit [("m", 1), ("s", -1)] "" ≠ "m s<sup>-1</sup>" ∧
    (∀ (u uspec : String), format_unit [(u, 1)] uspec = u) ∧
    (∀ (u : String) (n : Int) (uspec : String), 1 < n →
      format_unit [(u, n)] uspec = u ++ "<sup>" ++ toString n ++ "</sup>") ∧
    (∀ (u v uspec : String), format_unit [(u, 1), (v, 1)] uspec = u ++ " " ++ v) ∧
    (∀ (u v w uspec : String),
      format_unit [(u, 1), (v, -1), (w, -1)] uspec =
        u ++ "/" ++ "(" ++ v ++ " " ++ w ++ ")") := by
  refine ⟨by decide, by decide, ?_, ?_, ?_, ?_⟩
  · intro u uspec
    simp [format_unit, htmlUnitFormatter, powTerm, joinSpace]
  · intro u n uspec h
    have h0 : (0 : Int) ≤ n := by omega
    have h1 : n ≠ 1 := by omega
    have h2 : ¬ (n < 0) := by omega
    simp [format_unit, htmlUnitFormatter, powTerm, joinSpace, h0, h1, h2]
  · intro u v uspec
    simp [format_unit, htmlUnitFormatter, powTerm, joinSpace]
  · intro u v w uspec
    apply String.ext
    simp [format_unit, htmlUnitFormatter, powTerm, joinSpace, String.data_append]

/-- Witness for C3: an exponent above one is rendered with the
superscript template. -/
theorem C3_witness : format_unit [("m", 3)] "" = "m<sup>3</sup>" := by
  have h := C3_format_unit_ratio.2.2.2.1 "m" 3 "" (by decide)
  exact h.trans (by decide)

/-- C4: format_quantity joins the formatted magnitude and unit with
the plain template of one separating space when the magnitude is
not iterable and the unit string is non-empty, and with the two-row
html table whose row labels are exactly Magnitude and Units with
left-aligned cells when the magnitude is iterable and the unit
string is non-empty; as the boundary case, an empty unit string
makes the join helper return the bare magnitude string with the
separating structure omitted. -/
theorem C4_format_quantity_join :
    (∀ (split : String → String → Bool → String × String) (q : Quantity) (qspec : String),
      q.mag.iterableB = false →
      format_unit q.units (split qspec q.defaultFormat q.separateFormatDefaults).2 ≠ "" →
      format_quantity split q qspec =
        format_magnitude q.mag (split qspec q.defaultFormat q.separateFormatDefaults).1 ++
          " " ++ format_unit q.units (split qspec q.defaultFormat q.separateFormatDefaults).2) ∧
    (∀ (split : String → String → Bool → String × String) (q : Quantity) (qspec : String),
      q.mag.iterableB = true →
      format_unit q.units (split qspec q.defaultFormat q.separateFormatDefaults).2 ≠ "" →
      format_quantity split q qspec =
        tableTemplate
          (format_magnitude q.mag (split qspec q.defaultFormat q.separateFormatDefaults).1)
          (format_unit q.units (split qspec q.defaultFormat q.separateFormatDefaults).2)) ∧
    (∀ (split : String → String → Bool → String × String) (q : Quantity) (qspec : String),
      format_unit q.units (split qspec q.defaultFormat q.separateFormatDefaults).2 = "" →
      format_quantity split q qspec =
        format_magnitude q.mag (split qspec q.defaultFormat q.separateFormatDefaults).1) ∧
    format_quantity (fun s _ _ => (s, s))
      ⟨⟨none, .noniter, fun _ => "1.5"⟩, [("m", 1)], "", false⟩ "" = "1.5 m" ∧
    format_quantity (fun s _ _ => (s, s))
      ⟨⟨none, .iter, fun _ => "[1 2]"⟩, [("m", 1)], "", false⟩ "" =
      "<table><tbody><tr><th>Magnitude</th><td style=\x27text-align:left;\x27><pre>[1 2]</pre>" ++
        "</td></tr><tr><th>Units</th><td style=\x27text-align:left;\x27>m</td></tr>" ++
        "</tbody></table>" := by
  refine ⟨?_, ?_, ?_, by decide, by decide⟩
  · intro split q qspec h hu
    unfold format_quantity join_mu scalarTemplate
    rw [h]
    simp [hu]
  · intro split q qspec h hu
    unfold format_quantity join_mu
    rw [h]
    simp [hu]
  · intro split q qspec hu
    unfold format_quantity join_mu
    simp [hu]

/-- Witness for C4: the scalar joint template, the table joint
template and the empty-unit boundary case at concrete quantities. -/
theorem C4_witness :
    format_quantity (fun s _ _ => (s, s))
      ⟨⟨none, .noniter, fun _ => "7"⟩, [("s", 1)], "", false⟩ "" = "7 s" ∧
    format_quantity (fun s _ _ => (s, s))
      ⟨⟨none, .iter, fun _ => "[7]"⟩, [("s", 1)], "", false⟩ "" =
      tableTemplate "<pre>[7]</pre>" "s" ∧
    format_quantity (fun s _ _ => (s, s))
      ⟨⟨none, .noniter, fun _ => "7"⟩, [], "", false⟩ "" = "7" := by
  refine ⟨?_, ?_, ?_⟩
  · have h := C4_format_quantity_join.1 (fun s _ _ => (s, s))
      ⟨⟨none, .noniter, fun _ => "7"⟩, [("s", 1)], "", false⟩ "" (by decide) (by decide)
    exact h.trans (by decide)
  · have h := C4_format_quantity_join.2.1 (fun s _ _ => (s, s))
      ⟨⟨none, .iter, fun _ => "[7]"⟩, [("s", 1)], "", false⟩ "" (by decide) (by decide)
    exact h.trans (by decide)
  · have h := C4_format_quantity_join.2.2.1 (fun s _ _ => (s, s))
      ⟨⟨none, .noniter, fun _ => "7"⟩, [], "", false⟩ "" (by decide)
    exact h.trans (by decide)

/-- C7: format_measurement derives the uncertainty spec by applying
the custom-flag remover to the whole input spec rather than to the
split magnitude spec, feeds it to format_uncertainty for the whole
value-plus-minus-error rendering, and feeds the split unit spec to
format_unit; a renderer distinguishing the two specs shows that the
whole spec is the one passed. -/
theorem C7_measurement_spec_flow :
    (∀ (split : String → String → Bool → String × String) (rm : String → String)
      (meas : Measurement) (spec : String),
      format_measurement split rm meas spec =
        join_unc "(" ")" (format_uncertainty meas.renderUnc (rm spec))
          (format_unit meas.units
            (split spec meas.defaultFormat meas.separateFormatDefaults).2)) ∧
    format_measurement (fun s _ _ => if s = "AB" then ("A", "B") else ("", ""))
      (fun s => s)
      ⟨fun sp => if sp = "AB" then "1+/-2" else "bad", [("m", 1)], "", false⟩ "AB" =
      "(1 &plusmn; 2) m" ∧
    format_measurement (fun s _ _ => if s = "AB" then ("A", "B") else ("", ""))
      (fun s => s)
      ⟨fun sp => if sp = "AB" then "1+/-2" else "bad", [("m", 1)], "", false⟩ "AB" ≠
      join_unc "(" ")"
        (format_uncertainty (fun sp => if sp = "AB" then "1+/-2" else "bad")
          ((fun s => s) "A"))
        (format_unit [("m", 1)] "B") := by
  refine ⟨fun split rm meas spec => rfl, by decide, by decide⟩

/-- C8: the scoped locale override restores the prior ambient
locale state on every exit path, including when the body raises;
format_magnitude run under the override leaves the locale state
unchanged. -/
theorem C8_locale_restored :
    (∀ (loc : Option String) (st : LocaleSt) (body : LocaleSt → Except String String),
      (override_locale loc st body).2 = st) ∧
    (∀ (loc : Option String) (st : LocaleSt) (mk : LocaleSt → Except String Mag)
      (mspec : String), (format_magnitude_loc loc st mk mspec).2 = st) ∧
    (∀ (l : String) (st : LocaleSt) (e : String),
      (override_locale (some l) st (fun _ => .error e)).2 = st) := by
  have ha : ∀ (loc : Option String) (st : LocaleSt) (body : LocaleSt → Except String String),
      (override_locale loc st body).2 = st := by
    intro loc st body
    cases loc with
    | none => rfl
    | some l =>
      show (match body ⟨l⟩ with
        | Except.ok v => (Except.ok v, st)
        | Except.error e => (Except.error e, st)).2 = st
      cases body ⟨l⟩ <;> rfl
  refine ⟨ha, ?_, fun l st e => ha (some l) st _⟩
  intro loc st mk mspec
  unfold format_magnitude_loc
  exact ha loc st _

lemma hasPM_cons (c : Char) (cs : List Char) :
    hasPM (c :: cs) = (startsPM (c :: cs) || hasPM cs) := rfl

lemma startsPM_true_shape (l : List Char) (h : startsPM l = true) :
    ∃ t, l = '+' :: '/' :: '-' :: t := by
  unfold startsPM at h
  split at h
  · next t => exact ⟨t, rfl⟩
  · cases h

lemma startsPM_nonplus (c : Char) (cs : List Char) (hc : c ≠ '+') :
    startsPM (c :: cs) = false := by
  unfold startsPM
  split
  · next heq =>
    injection heq with h1 h2
    exact absurd h1 hc
  · rfl

lemma startsPM_plus_nonslash (d : Char) (t : List Char) (hd : d ≠ '/') :
    startsPM ('+' :: d :: t) = false := by
  unfold startsPM
  split
  · next heq =>
    injection heq with h1 h2
    injection h2 with h3 h4
    exact absurd h3 hd
  · rfl

lemma hasPM_digits (l : List Char) (h : ∀ c ∈ l, c.isDigit) : hasPM l = false := by
  induction l with
  | nil => rfl
  | cons c cs ih =>
    rw [hasPM_cons]
    rw [startsPM_nonplus c cs
      (isDigit_ne c '+' (h c (List.mem_cons_self c cs)) (by decide))]
    rw [ih (fun x hx => h x (List.mem_cons_of_mem c hx))]
    rfl

lemma replacePM_cons (c : Char) (cs : List Char) (h : startsPM (c :: cs) = false) :
    replacePM (c :: cs) = c :: replacePM cs := by
  rw [replacePM.eq_def]
  split
  · next heq =>
    rw [show startsPM (c :: cs) = true by rw [heq]; rfl] at h
    cases h
  · next heq =>
    injection heq with h1 h2
    rw [h1, h2]
  · next heq => cases heq

lemma replacePM_no_pm_id (l : List Char) (h : hasPM l = false) : replacePM l = l := by
  induction l with
  | nil => rfl
  | cons c cs ih =>
    rw [hasPM_cons, Bool.or_eq_false_iff] at h
    rw [replacePM_cons c cs h.1, ih h.2]

lemma matchEPlus_nonparen (c : Char) (cs : List Char) (hc : c ≠ ')') :
    matchEPlus (c :: cs) = none := by
  rw [matchEPlus.eq_def]
  split
  · next heq =>
    injection heq with h1 h2
    exact absurd h1 hc
  · rfl

lemma matchEMinus_nonparen (c : Char) (cs : List Char) (hc : c ≠ ')') :
    matchEMinus (c :: cs) = none := by
  rw [matchEMinus.eq_def]
  split
  · next heq =>
    injection heq with h1 h2
    exact absurd h1 hc
  · rfl

lemma gsub_id_no_paren {M : List Char → Option (List Char × List Char)}
    (hM : ∀ c cs, c ≠ ')' → M (c :: cs) = none)
    (l : List Char) (h : ∀ c ∈ l, c ≠ ')') : gsub M l = l := by
  induction l with
  | nil => rfl
  | cons c cs ih =>
    rw [gsub_cons_nomatch c cs (hM c cs (h c (List.mem_cons_self c cs)))]
    rw [ih (fun x hx => h x (List.mem_cons_of_mem c hx))]

lemma matchEPlus_eval (d : Char) (ds : List Char)
    (hall : ∀ c ∈ d :: ds, c.isDigit) :
    matchEPlus (')' :: 'e' :: '+' :: (d :: ds)) =
      some ((")×10<sup>").data ++ (if d = '0' ∧ ds ≠ [] then ds else d :: ds) ++
        "</sup>".data, []) := by
  have : matchEPlus (')' :: 'e' :: '+' :: (d :: ds)) =
      (match takeDigits (d :: ds) with
        | ([], _) => none
        | (d' :: ds', rest) =>
          some ((")×10<sup>").data ++ (if d' = '0' ∧ ds' ≠ [] then ds' else d' :: ds') ++
            "</sup>".data, rest)) := rfl
  rw [this, takeDigits_all (d :: ds) hall]

lemma matchEMinus_eval (d : Char) (ds : List Char)
    (hall : ∀ c ∈ d :: ds, c.isDigit) :
    matchEMinus (')' :: 'e' :: '-' :: (d :: ds)) =
      some ((")×10<sup>-").data ++ (if d = '0' ∧ ds ≠ [] then ds else d :: ds) ++
        "</sup>".data, []) := by
  have : matchEMinus (')' :: 'e' :: '-' :: (d :: ds)) =
      (match takeDigits (d :: ds) with
        | ([], _) => none
        | (d' :: ds', rest) =>
          some ((")×10<sup>-").data ++ (if d' = '0' ∧ ds' ≠ [] then ds' else d' :: ds') ++
            "</sup>".data, rest)) := rfl
  rw [this, takeDigits_all (d :: ds) hall]

/-- C6 counterexample: with two leading zeros on the exponent, the
uncertainty rewrite removes only one zero, not all of them: the
superscript keeps the remaining zero. -/
theorem C6_counterexample :
    format_uncertainty (fun _ => "(1.00+/-0.01)e+002") "" =
      "(1.00 &plusmn; 0.01)×10<sup>02</sup>" ∧
    format_uncertainty (fun _ => "(1.00+/-0.01)e+002") "" ≠
      "(1.00 &plusmn; 0.01)×10<sup>2</sup>" := by
  constructor
  · decide
  · decide

/-- C6 amended: the uncertainty rewrite tolerates at most one
leading zero on the exponent digits: the suffix parenthesis-e-sign
followed by a digit run is rewritten to the superscript form where
exactly one leading zero is dropped when the run starts with a zero
and has further digits, and the run is kept whole otherwise; both
polarities behave alike. -/
theorem C6_amended :
    (∀ (d : Char) (ds : List Char), d.isDigit → (∀ c ∈ ds, c.isDigit) →
      format_uncertainty (fun _ => ⟨')' :: 'e' :: '+' :: (d :: ds)⟩) "" =
        ⟨(")×10<sup>").data ++ (if d = '0' ∧ ds ≠ [] then ds else d :: ds) ++
          "</sup>".data⟩) ∧
    (∀ (d : Char) (ds : List Char), d.isDigit → (∀ c ∈ ds, c.isDigit) →
      format_uncertainty (fun _ => ⟨')' :: 'e' :: '-' :: (d :: ds)⟩) "" =
        ⟨(")×10<sup>-").data ++ (if d = '0' ∧ ds ≠ [] then ds else d :: ds) ++
          "</sup>".data⟩) := by
  constructor
  · intro d ds hd hds
    have hall : ∀ c ∈ d :: ds, c.isDigit := by
      intro c hc
      rcases List.mem_cons.mp hc with h | h
      · exact h ▸ hd
      · exact hds c h
    show (⟨gsub matchEMinus (gsub matchEPlus
      (replacePM (')' :: 'e' :: '+' :: (d :: ds))))⟩ : String) = _
    have hpm : hasPM (')' :: 'e' :: '+' :: (d :: ds)) = false := by
      rw [hasPM_cons, hasPM_cons, hasPM_cons]
      rw [startsPM_nonplus ')' _ (by decide), startsPM_nonplus 'e' _ (by decide)]
      rw [startsPM_plus_nonslash d ds (isDigit_ne d '/' hd (by decide))]
      rw [hasPM_digits (d :: ds) hall]
      rfl
    rw [replacePM_no_pm_id _ hpm]
    rw [gsub_full_match matchEPlus_shrinking _ _ (matchEPlus_eval d ds hall) (by simp)]
    have hgd : ∀ c ∈ (if d = '0' ∧ ds ≠ [] then ds else d :: ds), c.isDigit := by
      split
      · exact fun c hc => hds c hc
      · exact hall
    have hout : (")×10<sup>").data ++ (if d = '0' ∧ ds ≠ [] then ds else d :: ds) ++
        "</sup>".data = ')' :: (("×10<sup>").data ++
          (if d = '0' ∧ ds ≠ [] then ds else d :: ds) ++ "</sup>".data) := rfl
    rw [hout]
    rw [gsub_cons_nomatch _ _ (by rfl :
      matchEMinus (')' :: (("×10<sup>").data ++
        (if d = '0' ∧ ds ≠ [] then ds else d :: ds) ++ "</sup>".data)) = none)]
    rw [gsub_id_no_paren matchEMinus_nonparen _ ?_]
    intro c hc
    rcases List.mem_append.mp hc with hc1 | hc2
    · rcases List.mem_append.mp hc1 with hc3 | hc4
      · exact (by decide : ∀ x ∈ ("×10<sup>").data, x ≠ ')') c hc3
      · exact isDigit_ne c ')' (hgd c hc4) (by decide)
    · exact (by decide : ∀ x ∈ "</sup>".data, x ≠ ')') c hc2
  · intro d ds hd hds
    have hall : ∀ c ∈ d :: ds, c.isDigit := by
      intro c hc
      rcases List.mem_cons.mp hc with h | h
      · exact h ▸ hd
      · exact hds c h
    show (⟨gsub matchEMinus (gsub matchEPlus
      (replacePM (')' :: 'e' :: '-' :: (d :: ds))))⟩ : String) = _
    have hpm : hasPM (')' :: 'e' :: '-' :: (d :: ds)) = false := by
      rw [hasPM_cons, hasPM_cons, hasPM_cons]
      rw [startsPM_nonplus ')' _ (by decide), startsPM_nonplus 'e' _ (by decide)]
      rw [startsPM_nonplus '-' _ (by decide)]
      rw [hasPM_digits (d :: ds) hall]
      rfl
    rw [replacePM_no_pm_id _ hpm]
    rw [gsub_cons_nomatch _ _ (by rfl :
      matchEPlus (')' :: ('e' :: '-' :: (d :: ds))) = none)]
    rw [gsub_id_no_paren matchEPlus_nonparen ('e' :: '-' :: (d :: ds)) ?_]
    · rw [gsub_full_match matchEMinus_shrinking _ _ (matchEMinus_eval d ds hall) (by simp)]
    · intro c hc
      rcases List.mem_cons.mp hc with h1 | h1
      · rw [h1]; decide
      · rcases List.mem_cons.mp h1 with h2 | h2
        · rw [h2]; decide
        · exact isDigit_ne c ')' (hall c h2) (by decide)

/-- Witness for C6: the exponent digit run 0012 keeps two of its
three leading zeros (only the first is dropped), and the negative
polarity drops the single leading zero of 07. -/
theorem C6_witness :
    format_uncertainty (fun _ => ")e+0012") "" = ")×10<sup>012</sup>" ∧
    format_uncertainty (fun _ => ")e-07") "" = ")×10<sup>-7</sup>" := by
  constructor
  · have h := C6_amended.1 '0' ['0', '1', '2'] (by decide) (by decide)
    exact h.trans (by decide)
  · have h := C6_amended.2 '0' ['7'] (by decide) (by decide)
    exact h.trans (by decide)

lemma hasPM_append_no_plus (a t : List Char) (h : ∀ c ∈ a, c ≠ '+') :
    hasPM (a ++ t) = hasPM t := by
  induction a with
  | nil => rfl
  | cons c a' ih =>
    rw [List.cons_append, hasPM_cons]
    rw [startsPM_nonplus c _ (h c (List.mem_cons_self c a'))]
    rw [ih (fun x hx => h x (List.mem_cons_of_mem c hx))]
    rfl

lemma hasPM_suffix (l l' : List Char) (hs : l' <:+ l) (h : hasPM l = false) :
    hasPM l' = false := by
  induction l with
  | nil =>
    rw [List.suffix_nil.mp hs]
    rfl
  | cons c cs ih =>
    rcases List.suffix_cons_iff.mp hs with h1 | h1
    · rw [h1]; exact h
    · rw [hasPM_cons, Bool.or_eq_false_iff] at h
      exact ih h1 h.2

lemma takeDigits_snd_suffix (l : List Char) : (takeDigits l).2 <:+ l := by
  induction l with
  | nil => exact List.suffix_refl _
  | cons c cs ih =>
    by_cases hc : c.isDigit
    · simp only [takeDigits, hc, if_pos]
      exact ih.trans (List.suffix_cons c cs)
    · simp [takeDigits, hc]

lemma takeDigits_fst_digits (l : List Char) : ∀ c ∈ (takeDigits l).1, c.isDigit := by
  induction l with
  | nil => simp [takeDigits]
  | cons c cs ih =>
    by_cases hc : c.isDigit
    · simp only [takeDigits, hc, if_pos]
      intro x hx
      rcases List.mem_cons.mp hx with h1 | h1
      · exact h1 ▸ hc
      · exact ih x h1
    · simp [takeDigits, hc]

lemma matchEPlus_props (l out rest : List Char) (h : matchEPlus l = some (out, rest)) :
    (∀ c ∈ out, c ≠ '+') ∧ (∃ o', out = ')' :: o') ∧ rest <:+ l := by
  rw [matchEPlus.eq_def] at h
  split at h
  · next cs =>
    split at h
    · exact absurd h (by simp)
    · next d ds rst hrun =>
      simp only [Option.some.injEq, Prod.mk.injEq] at h
      obtain ⟨hout, hrest⟩ := h
      have hds : ∀ c ∈ d :: ds, c.isDigit := by
        have := takeDigits_fst_digits cs
        rw [hrun] at this
        exact this
      have hg : ∀ c ∈ (if d = '0' ∧ ds ≠ [] then ds else d :: ds), c.isDigit := by
        split
        · exact fun c hc => hds c (List.mem_cons_of_mem d hc)
        · exact hds
      refine ⟨?_, ⟨_, hout.symm⟩, ?_⟩
      · intro c hc
        rw [← hout] at hc
        rcases List.mem_append.mp hc with hc1 | hc2
        · rcases List.mem_append.mp hc1 with hc3 | hc4
          · exact (by decide : ∀ x ∈ (")×10<sup>").data, x ≠ '+') c hc3
          · exact isDigit_ne c '+' (hg c hc4) (by decide)
        · exact (by decide : ∀ x ∈ "</sup>".data, x ≠ '+') c hc2
      · rw [← hrest]
        have h1 : rst <:+ cs := by
          have := takeDigits_snd_suffix cs
          rw [hrun] at this
          exact this
        exact ((h1.trans (List.suffix_cons '+' cs)).trans
          (List.suffix_cons 'e' _)).trans (List.suffix_cons ')' _)
  · exact absurd h (by simp)

lemma matchEMinus_props (l out rest : List Char) (h : matchEMinus l = some (out, rest)) :
    (∀ c ∈ out, c ≠ '+') ∧ (∃ o', out = ')' :: o') ∧ rest <:+ l := by
  rw [matchEMinus.eq_def] at h
  split at h
  · next cs =>
    split at h
    · exact absurd h (by simp)
    · next d ds rst hrun =>
      simp only [Option.some.injEq, Prod.mk.injEq] at h
      obtain ⟨hout, hrest⟩ := h
      have hds : ∀ c ∈ d :: ds, c.isDigit := by
        have := takeDigits_fst_digits cs
        rw [hrun] at this
        exact this
      have hg : ∀ c ∈ (if d = '0' ∧ ds ≠ [] then ds else d :: ds), c.isDigit := by
        split
        · exact fun c hc => hds c (List.mem_cons_of_mem d hc)
        · exact hds
      refine ⟨?_, ⟨_, hout.symm⟩, ?_⟩
      · intro c hc
        rw [← hout] at hc
        rcases List.mem_append.mp hc with hc1 | hc2
        · rcases List.mem_append.mp hc1 with hc3 | hc4
          · exact (by decide : ∀ x ∈ (")×10<sup>-").data, x ≠ '+') c hc3
          · exact isDigit_ne c '+' (hg c hc4) (by decide)
        · exact (by decide : ∀ x ∈ "</sup>".data, x ≠ '+') c hc2
      · rw [← hrest]
        have h1 : rst <:+ cs := by
          have := takeDigits_snd_suffix cs
          rw [hrun] at this
          exact this
        exact ((h1.trans (List.suffix_cons '-' cs)).trans
          (List.suffix_cons 'e' _)).trans (List.suffix_cons ')' _)
  · exact absurd h (by simp)

lemma replacePM_head (l : List Char) (x : Char) (T : List Char)
    (h : replacePM l = x :: T) : x = ' ' ∨ ∃ l', l = x :: l' := by
  cases l with
  | nil => cases h
  | cons c cs =>
    cases hs : startsPM (c :: cs) with
    | true =>
      obtain ⟨t, ht⟩ := startsPM_true_shape _ hs
      rw [ht] at h
      rw [show replacePM ('+' :: '/' :: '-' :: t) = pmRepl ++ replacePM t from rfl] at h
      injection h with h1 h2
      exact Or.inl h1.symm
    | false =>
      rw [replacePM_cons c cs hs] at h
      injection h with h1 h2
      exact Or.inr ⟨cs, by rw [h1]⟩

lemma replacePM_no_pm_aux :
    ∀ (n : Nat) (l : List Char), l.length ≤ n → hasPM (replacePM l) = false := by
  intro n
  induction n with
  | zero =>
    intro l h
    rw [List.eq_nil_of_length_eq_zero (Nat.le_zero.mp h)]
    rfl
  | succ n ih =>
    intro l hlen
    cases hs : startsPM l with
    | true =>
      obtain ⟨t, ht⟩ := startsPM_true_shape _ hs
      subst ht
      rw [show replacePM ('+' :: '/' :: '-' :: t) = pmRepl ++ replacePM t from rfl]
      rw [hasPM_append_no_plus _ _ (by decide : ∀ c ∈ pmRepl, c ≠ '+')]
      simp only [List.length_cons] at hlen
      exact ih t (by omega)
    | false =>
      cases l with
      | nil => rfl
      | cons c cs =>
        rw [replacePM_cons c cs hs, hasPM_cons]
        simp only [List.length_cons] at hlen
        rw [ih cs (by omega)]
        rw [Bool.or_false]
        by_cases hc : c = '+'
        · subst hc
          cases hsp : startsPM ('+' :: replacePM cs) with
          | false => rfl
          | true =>
            exfalso
            obtain ⟨t', ht'⟩ := startsPM_true_shape _ hsp
            injection ht' with h1 h2
            rcases replacePM_head cs '/' ('-' :: t') h2 with h3 | ⟨cs1, h3⟩
            · exact absurd h3 (by decide)
            · rw [h3] at h2
              rw [replacePM_cons '/' cs1 (startsPM_nonplus '/' cs1 (by decide))] at h2
              injection h2 with h4 h5
              rcases replacePM_head cs1 '-' t' h5 with h6 | ⟨cs2, h6⟩
              · exact absurd h6 (by decide)
              · rw [h3, h6] at hs
                rw [show startsPM ('+' :: '/' :: '-' :: cs2) = true from rfl] at hs
                cases hs
        · rw [startsPM_nonplus c _ hc]

lemma replacePM_no_pm (l : List Char) : hasPM (replacePM l) = false :=
  replacePM_no_pm_aux l.length l (le_refl _)

lemma gsub_head {M : List Char → Option (List Char × List Char)}
    (hshr : Shrinking M)
    (hshape : ∀ l out rest, M l = some (out, rest) → ∃ o', out = ')' :: o')
    (l : List Char) (x : Char) (T : List Char) (h : gsub M l = x :: T) :
    x = ')' ∨ ∃ l', l = x :: l' := by
  cases l with
  | nil => cases h
  | cons c cs =>
    cases hm : M (c :: cs) with
    | some r =>
      rw [gsub_cons_match hshr c cs r.1 r.2 (by rw [hm])] at h
      obtain ⟨o', ho'⟩ := hshape (c :: cs) r.1 r.2 (by rw [hm])
      rw [ho'] at h
      injection h with h1 h2
      exact Or.inl h1.symm
    | none =>
      rw [gsub_cons_nomatch c cs hm] at h
      injection h with h1 h2
      exact Or.inr ⟨cs, by rw [h1]⟩

lemma gsub_no_pm_aux {M : List Char → Option (List Char × List Char)}
    (hshr : Shrinking M)
    (hplus : ∀ l out rest, M l = some (out, rest) → ∀ c ∈ out, c ≠ '+')
    (hshape : ∀ l out rest, M l = some (out, rest) → ∃ o', out = ')' :: o')
    (hsuf : ∀ l out rest, M l = some (out, rest) → rest <:+ l)
    (hparen : ∀ c cs, c ≠ ')' → M (c :: cs) = none) :
    ∀ (n : Nat) (l : List Char), l.length ≤ n → hasPM l = false →
      hasPM (gsub M l) = false := by
  intro n
  induction n with
  | zero =>
    intro l hlen h
    rw [List.eq_nil_of_length_eq_zero (Nat.le_zero.mp hlen)]
    rfl
  | succ n ih =>
    intro l hlen h
    cases l with
    | nil => rfl
    | cons c cs =>
      rw [hasPM_cons, Bool.or_eq_false_iff] at h
      cases hm : M (c :: cs) with
      | some r =>
        rw [gsub_cons_match hshr c cs r.1 r.2 (by rw [hm])]
        rw [hasPM_append_no_plus _ _ (hplus (c :: cs) r.1 r.2 (by rw [hm]))]
        have hr := hshr (c :: cs) r.1 r.2 (by rw [hm])
        have hrest : hasPM r.2 = false := by
          apply hasPM_suffix (c :: cs) r.2 (hsuf (c :: cs) r.1 r.2 (by rw [hm]))
          rw [hasPM_cons, Bool.or_eq_false_iff]
          exact h
        simp only [List.length_cons] at hr hlen
        exact ih r.2 (by omega) hrest
      | none =>
        rw [gsub_cons_nomatch c cs hm, hasPM_cons]
        simp only [List.length_cons] at hlen
        rw [ih cs (by omega) h.2, Bool.or_false]
        by_cases hc : c = '+'
        · subst hc
          cases hsp : startsPM ('+' :: gsub M cs) with
          | false => rfl
          | true =>
            exfalso
            obtain ⟨t', ht'⟩ := startsPM_true_shape _ hsp
            injection ht' with h1 h2
            rcases gsub_head hshr hshape cs '/' ('-' :: t') h2 with h3 | ⟨cs1, h3⟩
            · exact absurd h3 (by decide)
            · rw [h3] at h2
              rw [gsub_cons_nomatch '/' cs1 (hparen '/' cs1 (by decide))] at h2
              injection h2 with h4 h5
              rcases gsub_head hshr hshape cs1 '-' t' h5 with h6 | ⟨cs2, h6⟩
              · exact absurd h6 (by decide)
              · rw [h3, h6] at h
                rw [show startsPM ('+' :: '/' :: '-' :: cs2) = true from rfl] at h
                exact absurd h.1 (by simp)
        · rw [startsPM_nonplus c _ hc]

lemma gsub_no_pm {M : List Char → Option (List Char × List Char)}
    (hshr : Shrinking M)
    (hplus : ∀ l out rest, M l = some (out, rest) → ∀ c ∈ out, c ≠ '+')
    (hshape : ∀ l out rest, M l = some (out, rest) → ∃ o', out = ')' :: o')
    (hsuf : ∀ l out rest, M l = some (out, rest) → rest <:+ l)
    (hparen : ∀ c cs, c ≠ ')' → M (c :: cs) = none)
    (l : List Char) (h : hasPM l = false) : hasPM (gsub M l) = false :=
  gsub_no_pm_aux hshr hplus hshape hsuf hparen l.length l (le_refl _) h

/-- C5: format_uncertainty replaces every occurrence of the
plus-minus marker with the plus-minus entity (the output never
contains the marker), and rewrites a trailing parenthesis-e-plus-12
suffix to the positive superscript form and a trailing
parenthesis-e-minus-12 suffix to the negative superscript form, the
two polarities as independent substitutions. -/
theorem C5_uncertainty_pm :
    (∀ (u : String → String) (spec : String),
      hasPM (format_uncertainty u spec).data = false) ∧
    format_uncertainty (fun _ => "(1.50+/-0.10)e+12") "" =
      "(1.50 &plusmn; 0.10)×10<sup>12</sup>" ∧
    format_uncertainty (fun _ => "(1.50+/-0.10)e-12") "" =
      "(1.50 &plusmn; 0.10)×10<sup>-12</sup>" ∧
    format_uncertainty (fun _ => "1+/-2+/-3") "" = "1 &plusmn; 2 &plusmn; 3" := by
  refine ⟨?_, by decide, by decide, by decide⟩
  intro u spec
  show hasPM (gsub matchEMinus (gsub matchEPlus (replacePM (u spec).data))) = false
  apply gsub_no_pm matchEMinus_shrinking
    (fun l out rest h => (matchEMinus_props l out rest h).1)
    (fun l out rest h => (matchEMinus_props l out rest h).2.1)
    (fun l out rest h => (matchEMinus_props l out rest h).2.2)
    matchEMinus_nonparen
  apply gsub_no_pm matchEPlus_shrinking
    (fun l out rest h => (matchEPlus_props l out rest h).1)
    (fun l out rest h => (matchEPlus_props l out rest h).2.1)
    (fun l out rest h => (matchEPlus_props l out rest h).2.2)
    matchEPlus_nonparen
  exact replacePM_no_pm (u spec).data

end PintHtml
